/-
Verification of the mospeada text-generation core: a shallow embedding of
`src/generation.rs` (sampling-policy resolution, the autoregressive
generation loop, the streaming detokenizer) and `src/repo.rs`
(safetensors shard-index resolution), with theorems settling the
specification claims.

Modelling conventions:
- Rust `usize`/`u32` values become `Nat` (no arithmetic here ever nears
  overflow; values are stored, compared and counted only).
- Rust `f64`/`f32` configuration fields become `ℚ`; the only operation
  performed on them is an order comparison against the constant `1e-7`.
- The external model/sampler capability (candle's `Module::forward`,
  repetition penalty, `LogitsProcessor::sample`) is abstracted as an
  oracle `List Nat → Nat → σ → σ × Except ε Nat` taking the context
  window, the start position and the opaque model+sampler state.
- The external tokenizer decode capability is a function
  `List Nat → List Char`; a Rust `String` is the list of its characters,
  and Rust byte lengths/byte indices are recovered through `Char.utf8Size`.
- Rust panics (`unwrap`, `split_at` off a char boundary) are modelled by
  returning `none` from an `Option`-valued embedding.
- A `&mut self` method becomes a function returning the updated state
  together with the result; errors returned through `Result` leave the
  mutated state visible, exactly as a Rust early return does.
-/
import Mathlib

namespace Mospeada

/-! ## Generation configuration (`generation.rs`, `GenerationConfig`) -/

/-- Rust `Eos`: a single EOS token id, or a list of them. -/
inductive Eos where
  | single (id : Nat)
  | multi (ids : List Nat)
deriving DecidableEq, Repr

/-- Rust `GenerationConfig`: all fields optional, mirroring the Rust struct. -/
structure GenerationConfig where
  eos_token_id : Option Eos
  temperature : Option ℚ
  repetition_penalty : Option ℚ
  top_p : Option ℚ
  top_k : Option Nat
  max_new_tokens : Option Nat
deriving DecidableEq, Repr

/-- Rust `GenerationConfig::get_eos_token_id`. -/
def GenerationConfig.get_eos_token_id (c : GenerationConfig) : Option (List Nat) :=
  match c.eos_token_id with
  | some (.single id) => some [id]
  | some (.multi ids) => some ids
  | none => none

/-- Rust `GenerationConfig::get_repetition_penalty_or`. -/
def GenerationConfig.get_repetition_penalty_or (c : GenerationConfig) (d : ℚ) : ℚ :=
  c.repetition_penalty.getD d

/-- Rust `GenerationConfig::get_max_new_tokens_or`. -/
def GenerationConfig.get_max_new_tokens_or (c : GenerationConfig) (d : Nat) : Nat :=
  c.max_new_tokens.getD d

/-- candle's `Sampling` enum, as consumed by `GenerationConfig::sampling`. -/
inductive Sampling where
  | argMax
  | all (temperature : ℚ)
  | topK (k : Nat) (temperature : ℚ)
  | topP (p : ℚ) (temperature : ℚ)
  | topKThenTopP (k : Nat) (p : ℚ) (temperature : ℚ)
deriving DecidableEq, Repr

/-- The negligible-temperature threshold `1e-7` of `GenerationConfig::sampling`. -/
def samplingThreshold : ℚ := 1 / 10000000

/-- Rust `GenerationConfig::sampling`: resolve a sampling strategy. -/
def GenerationConfig.sampling (c : GenerationConfig) : Sampling :=
  let temperature := c.temperature.bind fun v =>
    if v < samplingThreshold then none else some v
  match temperature with
  | none => .argMax
  | some t =>
    match c.top_k, c.top_p with
    | none, none => .all t
    | some k, none => .topK k t
    | none, some p => .topP p t
    | some k, some p => .topKThenTopP k p t

/-! ## Generation loop (`generation.rs`, `TextGeneration`) -/

/-- Outcome of one generation step: the four-way shape of
`Result<u32>` as actually produced by `TextGeneration::next_token`
(`Ok`, `Error::Eos`, `Error::MaxNewTokenExceeded`, or a propagated
external failure from the model/sampler capability). -/
inductive StepResult (ε : Type) where
  | ok (token : Nat)
  | eos (eos_token_id : Nat) (generated : Nat)
  | maxNewTokenExceeded (max_new_tokens : Nat)
  | fail (e : ε)
deriving DecidableEq, Repr

/-- The opaque model+sampler capability: given the context window, the
start position and its own state, it either samples a token or fails.
This packages `Module::forward`, the repetition-penalty transform and
`LogitsProcessor::sample`, all external to the generation loop. -/
def Oracle (σ ε : Type) : Type :=
  List Nat → Nat → σ → σ × Except ε Nat

/-- Rust `TextGeneration`: the generation-session state.  `model`, `device`
and `logits_processor` are folded into the opaque oracle state. -/
structure TextGeneration (σ : Type) where
  oracleState : σ
  repetition_penalty : ℚ
  repeat_last_n : Nat
  eos_token_id : List Nat
  max_new_tokens : Nat
  generated_tokens : Nat
  tokens : List Nat
deriving DecidableEq, Repr

/-- Rust `TextGeneration::new`.  The Rust constructor `unwrap`s the EOS set;
the `unwrap` panic on a configuration without EOS information is
modelled by `none`. -/
def TextGeneration.new {σ : Type} (σ0 : σ) (config : GenerationConfig)
    (repeat_last_n : Nat) : Option (TextGeneration σ) :=
  match config.get_eos_token_id with
  | none => none
  | some eos =>
    some { oracleState := σ0
           repetition_penalty := config.get_repetition_penalty_or 1
           repeat_last_n := repeat_last_n
           eos_token_id := eos
           max_new_tokens := config.get_max_new_tokens_or 0
           generated_tokens := 0
           tokens := [] }

/-- Rust `TextGeneration::next_token`: one generation step.  Note `Nat`
subtraction is Rust's `saturating_sub`. -/
def TextGeneration.next_token {σ ε : Type} (oracle : Oracle σ ε)
    (s : TextGeneration σ) (context_size : Nat) :
    TextGeneration σ × StepResult ε :=
  if s.max_new_tokens ≤ s.generated_tokens then
    (s, .maxNewTokenExceeded s.max_new_tokens)
  else
    let start_pos := s.tokens.length - context_size
    let ctxt := s.tokens.drop start_pos
    match oracle ctxt start_pos s.oracleState with
    | (σ', .error e) => ({ s with oracleState := σ' }, .fail e)
    | (σ', .ok next) =>
      let s' := { s with oracleState := σ',
                         tokens := s.tokens ++ [next],
                         generated_tokens := s.generated_tokens + 1 }
      if next ∈ s.eos_token_id then
        (s', .eos next s'.generated_tokens)
      else
        (s', .ok next)

/-- Rust `TextGeneration::next`. -/
def TextGeneration.next {σ ε : Type} (oracle : Oracle σ ε)
    (s : TextGeneration σ) : TextGeneration σ × StepResult ε :=
  s.next_token oracle 1

/-- Rust `TextGeneration::apply`: reset the model cache (`reset` acts on the
oracle state), replace the history, zero the counter, set the budget,
and take one step over the whole initial sequence. -/
def TextGeneration.apply {σ ε : Type} (oracle : Oracle σ ε) (reset : σ → σ)
    (s : TextGeneration σ) (ids : List Nat) (max_new_tokens : Nat) :
    TextGeneration σ × StepResult ε :=
  let s1 := { s with oracleState := reset s.oracleState,
                     tokens := ids,
                     generated_tokens := 0,
                     max_new_tokens := max_new_tokens }
  s1.next_token oracle ids.length

/-! ## Streaming detokenizer (`generation.rs`, `TextOutputStream`) -/

/-- Rust byte length of a string modelled as `List Char`. -/
def byteLen (s : List Char) : Nat :=
  (s.map Char.utf8Size).sum

/-- Rust `str::split_at` at a byte index: `none` when the index is out
of range or not on a character boundary (a Rust panic). -/
def splitAtBytes : List Char → Nat → Option (List Char × List Char)
  | s, 0 => some ([], s)
  | [], _ + 1 => none
  | c :: cs, n + 1 =>
    if c.utf8Size ≤ n + 1 then
      Option.map (fun p => (c :: p.1, p.2)) (splitAtBytes cs (n + 1 - c.utf8Size))
    else
      none

/-- Rust `TextOutputStream` state: token history plus the two offsets.  The
tokenizer itself is passed to each operation as the `decode` capability. -/
structure TextOutputStream where
  tokens : List Nat
  prev_index : Nat
  current_index : Nat
deriving DecidableEq, Repr

/-- Rust `TextOutputStream::new`. -/
def TextOutputStream.new : TextOutputStream :=
  { tokens := [], prev_index := 0, current_index := 0 }

/-- Rust slice `l[a..b]`. -/
def sliceT (l : List Nat) (a b : Nat) : List Nat :=
  (l.drop a).take (b - a)

/-- The `prev_text` computed at the top of `TextOutputStream::next_token`
and `TextOutputStream::decode_rest`: the empty string when the history is
empty, the decode of the `[prev_index, current_index)` slice otherwise. -/
def prevText (decode : List Nat → List Char) (s : TextOutputStream) : List Char :=
  if s.tokens = [] then []
  else decode (sliceT s.tokens s.prev_index s.current_index)

/-- Rust `TextOutputStream::next_token` (one `push`).  `decode` is the
tokenizer capability, `alnum` is Rust's `char::is_alphanumeric`.  The
result is `none` on a Rust panic (`unwrap` of a last char that does not
exist, or `split_at` off a character boundary); otherwise it is the
updated state paired with the optional emitted fragment. -/
def TextOutputStream.next_token (decode : List Nat → List Char)
    (alnum : Char → Bool) (s : TextOutputStream) (token : Nat) :
    Option (TextOutputStream × Option (List Char)) :=
  let prev_text := prevText decode s
  let tokens' := s.tokens ++ [token]
  let text := decode (tokens'.drop s.prev_index)
  if byteLen prev_text < byteLen text then
    match text.getLast? with
    | none => none
    | some c =>
      if alnum c then
        match splitAtBytes text (byteLen prev_text) with
        | none => none
        | some p =>
          some ({ tokens := tokens', prev_index := s.current_index,
                  current_index := tokens'.length }, some p.2)
      else
        some ({ s with tokens := tokens' }, none)
  else
    some ({ s with tokens := tokens' }, none)

/-- Rust `TextOutputStream::decode_rest`: flush the pending tail without the
alphanumeric heuristic and without touching the state (`&self`).  The
outer `Option` is `none` on a `split_at` panic. -/
def TextOutputStream.decode_rest (decode : List Nat → List Char)
    (s : TextOutputStream) : Option (Option (List Char)) :=
  let prev_text := prevText decode s
  let text := decode (s.tokens.drop s.prev_index)
  if byteLen prev_text < byteLen text then
    match splitAtBytes text (byteLen prev_text) with
    | none => none
    | some p => some (some p.2)
  else
    some none

/-- Rust `TextOutputStream::decode_all`. -/
def TextOutputStream.decode_all (decode : List Nat → List Char)
    (s : TextOutputStream) : List Char :=
  decode s.tokens

/-- Push a whole token sequence, accumulating the concatenation of all
emitted fragments; `none` propagates a panic of some push. -/
def TextOutputStream.pushAll (decode : List Nat → List Char)
    (alnum : Char → Bool) (s : TextOutputStream) :
    List Nat → Option (TextOutputStream × List Char)
  | [] => some (s, [])
  | t :: ts =>
    match s.next_token decode alnum t with
    | none => none
    | some (s', frag) =>
      match s'.pushAll decode alnum ts with
      | none => none
      | some (s'', out) => some (s'', frag.getD [] ++ out)

/-- Offset well-formedness of a detokenizer state. -/
def TextOutputStream.wf (s : TextOutputStream) : Prop :=
  s.prev_index ≤ s.current_index ∧ s.current_index ≤ s.tokens.length

/-! ## A concrete transducer tokenizer (used to separate the
monotonic-byte-prefix property from the streaming round-trip) -/

/-- States of a small emitting transducer. -/
inductive TState where
  | s0 | s1 | s2 | t2 | dead
deriving DecidableEq, Repr

/-- Transition and emission of the transducer. -/
def tStep : TState → Nat → TState × List Char
  | .s0, 1 => (.s1, ['a'])
  | .s0, 2 => (.t2, ['x'])
  | .s1, 2 => (.s2, ['b'])
  | .s2, 3 => (.dead, ['z'])
  | .t2, 3 => (.dead, ['y'])
  | _, _ => (.dead, ['q'])

/-- Run the transducer, concatenating emissions. -/
def tRun : TState → List Nat → List Char
  | _, [] => []
  | st, t :: ts => (tStep st t).2 ++ tRun (tStep st t).1 ts

/-- A decode capability computed by the transducer from the start state.
Being transducer-computed, it satisfies the monotonic byte-prefix
property by construction. -/
def cdec (ts : List Nat) : List Char :=
  tRun .s0 ts

/-! ## Concrete inputs for counterexamples and witnesses -/

/-- An oracle over trivial state that always samples token 7. -/
def oracle7 : Oracle Unit Unit :=
  fun _ _ _ => ((), Except.ok 7)

/-- An oracle over trivial state that always samples token 100. -/
def oracle100 : Oracle Unit Unit :=
  fun _ _ _ => ((), Except.ok 100)

/-- An oracle over trivial state that always fails. -/
def oracleFail : Oracle Unit Unit :=
  fun _ _ _ => ((), Except.error ())

/-- A mid-session generation state: 5 tokens of history, 3 generated. -/
def cexSession : TextGeneration Unit :=
  { oracleState := ()
    repetition_penalty := 1
    repeat_last_n := 0
    eos_token_id := [100]
    max_new_tokens := 10
    generated_tokens := 3
    tokens := [1, 2, 3, 4, 5] }

/-- A configuration with every optional field present. -/
def cfgFull : GenerationConfig :=
  { eos_token_id := some (.multi [128001, 128008, 128009])
    temperature := some (6 / 10)
    repetition_penalty := some (11 / 10)
    top_p := some (9 / 10)
    top_k := some 40
    max_new_tokens := some 2048 }

/-- A configuration with only an EOS id. -/
def cfgEosOnly : GenerationConfig :=
  { eos_token_id := some (.single 151643)
    temperature := none
    repetition_penalty := none
    top_p := none
    top_k := none
    max_new_tokens := none }

/-- A configuration with no EOS information. -/
def cfgNoEos : GenerationConfig :=
  { eos_token_id := none
    temperature := some (6 / 10)
    repetition_penalty := none
    top_p := none
    top_k := none
    max_new_tokens := some 5 }

/-- A character-per-token decode capability (trivially concatenative). -/
def mapDec (ts : List Nat) : List Char :=
  ts.map fun t => Char.ofNat (65 + t % 26)

/-! ## JSON values and shard-index resolution (`repo.rs`) -/

/-- The `serde_json::Value`, with objects as association lists. -/
inductive Json where
  | null
  | bool (b : Bool)
  | num (q : ℚ)
  | str (s : String)
  | arr (elems : List Json)
  | obj (fields : List (String × Json))

/-- The `Value::get` on an object key (`None` on any non-object). -/
def Json.get (j : Json) (key : String) : Option Json :=
  match j with
  | .obj fields => (fields.find? fun p => p.1 == key).map Prod.snd
  | _ => none

/-- The `Value::as_str`. -/
def Json.as_str : Json → Option String
  | .str s => some s
  | _ => none

/-- The `read_safetensors_index_file` routine on an already-parsed document: extract
`weight_map`, then collect the string values into a set (`HashSet`
becomes `Finset`).  Non-string values are skipped, as in the source. -/
def read_safetensors_index_file (json : Json) : Except String (Finset String) :=
  match json.get "weight_map" with
  | none => .error "no weight map"
  | some (.obj map) => .ok (map.filterMap fun p => p.2.as_str).toFinset
  | some _ => .error "weight map is not a map"

/-- The `load_safetensors` routine: resolve each deduplicated filename to a path
(`join` abstracts `Path::join`), one list entry per set element.  The
Rust `HashSet` iteration order is unspecified; it is modelled as the
sorted enumeration of the set. -/
def load_safetensors (join : String → String) (json : Json) :
    Except String (List String) :=
  (read_safetensors_index_file json).map fun fs =>
    (fs.sort fun a b => a ≤ b).map join

/-- A shard-index document mapping 10 distinct tensor names to 2 shard
filenames. -/
def wmFields : List (String × Json) :=
  [("t0", .str "a.st"), ("t1", .str "b.st"), ("t2", .str "a.st"),
   ("t3", .str "b.st"), ("t4", .str "a.st"), ("t5", .str "b.st"),
   ("t6", .str "a.st"), ("t7", .str "b.st"), ("t8", .str "a.st"),
   ("t9", .str "b.st")]

/-- The shard-index document wrapping `wmFields`. -/
def wmJson : Json :=
  .obj [("weight_map", .obj wmFields)]

/-- A document without a `weight_map` field. -/
def wmMissing : Json :=
  .obj [("metadata", .num 3)]

/-- A document whose `weight_map` is not a map. -/
def wmNotMap : Json :=
  .obj [("weight_map", .str "oops")]

/-- A generation-session state whose token budget is already exhausted. -/
def exhaustedSession : TextGeneration Unit :=
  { oracleState := ()
    repetition_penalty := 1
    repeat_last_n := 0
    eos_token_id := [100]
    max_new_tokens := 10
    generated_tokens := 10
    tokens := [1, 2, 3] }

/-! ## Helper lemmas -/

/-- Exhaustive description of one `TextGeneration::next_token` step. -/
theorem next_token_cases {σ ε : Type} (oracle : Oracle σ ε)
    (s : TextGeneration σ) (n : Nat) :
    (s.max_new_tokens ≤ s.generated_tokens ∧
      s.next_token oracle n = (s, .maxNewTokenExceeded s.max_new_tokens)) ∨
    (s.generated_tokens < s.max_new_tokens ∧
      ∃ σ' r, oracle (s.tokens.drop (s.tokens.length - n))
          (s.tokens.length - n) s.oracleState = (σ', r) ∧
        ((∃ e, r = .error e ∧
            s.next_token oracle n = ({ s with oracleState := σ' }, .fail e)) ∨
         (∃ tok, r = .ok tok ∧
            s.next_token oracle n =
              ({ s with oracleState := σ', tokens := s.tokens ++ [tok],
                        generated_tokens := s.generated_tokens + 1 },
               if tok ∈ s.eos_token_id then .eos tok (s.generated_tokens + 1)
               else .ok tok)))) := by
  by_cases h : s.max_new_tokens ≤ s.generated_tokens
  · exact Or.inl ⟨h, by simp [TextGeneration.next_token, h]⟩
  · refine Or.inr ⟨not_le.mp h, ?_⟩
    rcases ho : oracle (s.tokens.drop (s.tokens.length - n))
        (s.tokens.length - n) s.oracleState with ⟨σ', r⟩
    refine ⟨σ', r, rfl, ?_⟩
    rcases r with e | tok
    · exact Or.inl ⟨e, rfl, by simp [TextGeneration.next_token, h, ho]⟩
    · refine Or.inr ⟨tok, rfl, ?_⟩
      by_cases he : tok ∈ s.eos_token_id <;>
        simp [TextGeneration.next_token, h, ho, he]

/-- Byte length distributes over concatenation. -/
theorem byteLen_append (a b : List Char) :
    byteLen (a ++ b) = byteLen a + byteLen b := by
  simp [byteLen]

/-- A nonempty string has positive byte length. -/
theorem byteLen_cons_pos (c : Char) (cs : List Char) : 0 < byteLen (c :: cs) := by
  have := c.utf8Size_pos
  simp only [byteLen, List.map_cons, List.sum_cons]
  omega

/-- A string of positive byte length is nonempty. -/
theorem ne_nil_of_byteLen_pos {a : List Char} (h : 0 < byteLen a) : a ≠ [] := by
  intro hnil
  rw [hnil] at h
  simp [byteLen] at h

/-- A nonempty string has a last character. -/
theorem getLast_exists {a : List Char} (h : a ≠ []) :
    ∃ c, a.getLast? = some c := by
  cases hc : a.getLast? with
  | none => exact absurd (List.getLast?_eq_none_iff.mp hc) h
  | some c => exact ⟨c, rfl⟩

/-- Splitting a concatenation at the byte length of its first part
succeeds and recovers the two parts. -/
theorem splitAtBytes_append :
    ∀ (a b : List Char), splitAtBytes (a ++ b) (byteLen a) = some (a, b) := by
  intro a
  induction a with
  | nil =>
    intro b
    have h0 : byteLen [] = 0 := rfl
    rw [h0, List.nil_append]
    cases b <;> rfl
  | cons c cs ih =>
    intro b
    have hpos := c.utf8Size_pos
    have hlen : byteLen (c :: cs) = c.utf8Size + byteLen cs := by
      simp [byteLen]
    obtain ⟨k, hk⟩ : ∃ k, byteLen (c :: cs) = k + 1 := by
      refine ⟨byteLen (c :: cs) - 1, ?_⟩
      have := byteLen_cons_pos c cs
      omega
    rw [hk]
    show splitAtBytes (c :: (cs ++ b)) (k + 1) = some (c :: cs, b)
    rw [splitAtBytes]
    have hle : c.utf8Size ≤ k + 1 := by omega
    rw [if_pos hle]
    have hsub : k + 1 - c.utf8Size = byteLen cs := by omega
    rw [hsub, ih b]
    rfl

/-- The transducer-computed decode satisfies the monotonic byte-prefix
property from any state. -/
theorem tRun_mono :
    ∀ (a : List Nat) (st : TState) (b : List Nat),
      ∃ t, tRun st a ++ t = tRun st (a ++ b) := by
  intro a
  induction a with
  | nil =>
    intro st b
    exact ⟨tRun st b, by simp [tRun]⟩
  | cons x xs ih =>
    intro st b
    obtain ⟨t, ht⟩ := ih (tStep st x).1 b
    refine ⟨t, ?_⟩
    show ((tStep st x).2 ++ tRun (tStep st x).1 xs) ++ t =
      (tStep st x).2 ++ tRun (tStep st x).1 (xs ++ b)
    rw [List.append_assoc, ht]

/-- When `decode [] = []`, `prevText` is the decode of the slice even on
an empty history. -/
theorem prevText_eq (decode : List Nat → List Char) (s : TextOutputStream)
    (hnil : decode [] = []) :
    prevText decode s = decode (sliceT s.tokens s.prev_index s.current_index) := by
  rw [prevText]
  by_cases h : s.tokens = []
  · rw [if_pos h, h]
    simp [sliceT, hnil]
  · rw [if_neg h]

/-- Reduction of one `push` in the flush case. -/
theorem stream_next_flush (decode : List Nat → List Char) (alnum : Char → Bool)
    (s : TextOutputStream) (token : Nat) (c : Char)
    (p : List Char × List Char)
    (hlt : byteLen (prevText decode s) <
      byteLen (decode ((s.tokens ++ [token]).drop s.prev_index)))
    (hc : (decode ((s.tokens ++ [token]).drop s.prev_index)).getLast? = some c)
    (ha : alnum c = true)
    (hsplit : splitAtBytes (decode ((s.tokens ++ [token]).drop s.prev_index))
        (byteLen (prevText decode s)) = some p) :
    s.next_token decode alnum token =
      some ({ tokens := s.tokens ++ [token], prev_index := s.current_index,
              current_index := s.tokens.length + 1 }, some p.2) := by
  simp only [TextOutputStream.next_token, if_pos hlt, hc, ha, hsplit,
    if_pos, List.length_append, List.length_cons, List.length_nil]

/-- Reduction of one `push` when the decode did not grow in bytes. -/
theorem stream_next_stall (decode : List Nat → List Char) (alnum : Char → Bool)
    (s : TextOutputStream) (token : Nat)
    (hnlt : ¬ byteLen (prevText decode s) <
      byteLen (decode ((s.tokens ++ [token]).drop s.prev_index))) :
    s.next_token decode alnum token =
      some ({ s with tokens := s.tokens ++ [token] }, none) := by
  simp only [TextOutputStream.next_token, if_neg hnlt]

/-- Reduction of one `push` when the text grew but its last character is
not alphanumeric. -/
theorem stream_next_notAlnum (decode : List Nat → List Char)
    (alnum : Char → Bool) (s : TextOutputStream) (token : Nat) (c : Char)
    (hlt : byteLen (prevText decode s) <
      byteLen (decode ((s.tokens ++ [token]).drop s.prev_index)))
    (hc : (decode ((s.tokens ++ [token]).drop s.prev_index)).getLast? = some c)
    (ha : alnum c = false) :
    s.next_token decode alnum token =
      some ({ s with tokens := s.tokens ++ [token] }, none) := by
  simp only [TextOutputStream.next_token, if_pos hlt, hc, ha,
    Bool.false_eq_true]
  simp

/-- Exhaustive description of the shapes a `push` result can take. -/
theorem stream_next_cases (decode : List Nat → List Char)
    (alnum : Char → Bool) (s : TextOutputStream) (token : Nat) :
    s.next_token decode alnum token = none ∨
    (∃ frag, s.next_token decode alnum token =
      some ({ tokens := s.tokens ++ [token], prev_index := s.current_index,
              current_index := s.tokens.length + 1 }, some frag)) ∨
    s.next_token decode alnum token =
      some ({ s with tokens := s.tokens ++ [token] }, none) := by
  simp only [TextOutputStream.next_token]
  split
  · split
    · exact Or.inl rfl
    · split
      · split
        · exact Or.inl rfl
        · rename_i p heq
          refine Or.inr (Or.inl ⟨p.2, ?_⟩)
          simp
      · exact Or.inr (Or.inr rfl)
  · exact Or.inr (Or.inr rfl)

/-- One `push` preserves offset well-formedness and never moves either
offset backwards. -/
theorem stream_step_wf (decode : List Nat → List Char) (alnum : Char → Bool)
    (s s' : TextOutputStream) (token : Nat) (frag : Option (List Char))
    (hwf : s.wf) (h : s.next_token decode alnum token = some (s', frag)) :
    s'.wf ∧ s.prev_index ≤ s'.prev_index ∧
      s.current_index ≤ s'.current_index := by
  obtain ⟨h1, h2⟩ := hwf
  rcases stream_next_cases decode alnum s token with h0 | ⟨f, h0⟩ | h0 <;>
    rw [h0] at h
  · cases h
  · rw [Option.some.injEq, Prod.mk.injEq] at h
    obtain ⟨hs, _⟩ := h
    subst hs
    refine ⟨⟨h2.trans (Nat.le_succ _), ?_⟩, h1, h2.trans (Nat.le_succ _)⟩
    simp
  · rw [Option.some.injEq, Prod.mk.injEq] at h
    obtain ⟨hs, _⟩ := h
    subst hs
    refine ⟨⟨h1, ?_⟩, Nat.le_refl _, Nat.le_refl _⟩
    simp
    omega

/-- Reduction of `decode_rest` when the pending decode did not grow. -/
theorem decode_rest_stall (decode : List Nat → List Char)
    (s : TextOutputStream)
    (hnlt : ¬ byteLen (prevText decode s) <
      byteLen (decode (s.tokens.drop s.prev_index))) :
    s.decode_rest decode = some none := by
  simp only [TextOutputStream.decode_rest, if_neg hnlt]

/-- Reduction of `decode_rest` when the pending decode grew. -/
theorem decode_rest_flush (decode : List Nat → List Char)
    (s : TextOutputStream) (p : List Char × List Char)
    (hlt : byteLen (prevText decode s) <
      byteLen (decode (s.tokens.drop s.prev_index)))
    (hsplit : splitAtBytes (decode (s.tokens.drop s.prev_index))
      (byteLen (prevText decode s)) = some p) :
    s.decode_rest decode = some (some p.2) := by
  simp only [TextOutputStream.decode_rest, if_pos hlt, hsplit]

/-- Dropping `a` splits as the `[a, b)` slice followed by dropping `b`. -/
theorem drop_decomp (l : List Nat) (a b : Nat) (hab : a ≤ b) :
    l.drop a = sliceT l a b ++ l.drop b := by
  rw [sliceT]
  have hdd : (l.drop a).drop (b - a) = l.drop b := by
    rw [List.drop_drop]
    congr 1
    omega
  rw [← hdd]
  exact (List.take_append_drop _ _).symm

/-- A decode is empty exactly when its byte length is zero. -/
theorem byteLen_eq_zero {a : List Char} : byteLen a = 0 ↔ a = [] := by
  cases a with
  | nil => simp [byteLen]
  | cons c cs =>
    have := byteLen_cons_pos c cs
    constructor
    · intro h
      omega
    · intro h
      cases h

/-- A concatenative decode maps the empty sequence to the empty string. -/
theorem concat_nil {decode : List Nat → List Char}
    (hconc : ∀ a b, decode (a ++ b) = decode a ++ decode b) :
    decode [] = [] := by
  have h := congrArg List.length (hconc [] [])
  simp only [List.nil_append, List.length_append] at h
  exact List.eq_nil_of_length_eq_zero (by omega)

/-- One `push` under a concatenative decode: it never panics, appends
the token, preserves well-formedness, and the delivered-text measure
`decode (tokens.take current_index)` advances by exactly the emitted
fragment. -/
theorem step_concat (decode : List Nat → List Char) (alnum : Char → Bool)
    (hconc : ∀ a b, decode (a ++ b) = decode a ++ decode b)
    (s : TextOutputStream) (token : Nat) (hwf : s.wf) :
    ∃ s' frag, s.next_token decode alnum token = some (s', frag) ∧
      s'.wf ∧ s'.tokens = s.tokens ++ [token] ∧
      decode (s.tokens.take s.current_index) ++ frag.getD [] =
        decode (s'.tokens.take s'.current_index) := by
  obtain ⟨h1, h2⟩ := hwf
  have hnil := concat_nil hconc
  have hpt := prevText_eq decode s hnil
  have hslice : sliceT (s.tokens ++ [token]) s.prev_index s.current_index =
      sliceT s.tokens s.prev_index s.current_index := by
    rw [sliceT, sliceT, List.drop_append_of_le_length (h1.trans h2)]
    refine List.take_append_of_le_length ?_
    rw [List.length_drop]
    omega
  have htext : decode ((s.tokens ++ [token]).drop s.prev_index) =
      decode (sliceT s.tokens s.prev_index s.current_index) ++
        decode ((s.tokens ++ [token]).drop s.current_index) := by
    rw [drop_decomp (s.tokens ++ [token]) s.prev_index s.current_index h1,
      hslice, hconc]
  have htake : (s.tokens ++ [token]).take s.current_index =
      s.tokens.take s.current_index :=
    List.take_append_of_le_length h2
  by_cases hR : decode ((s.tokens ++ [token]).drop s.current_index) = []
  · have hnlt : ¬ byteLen (prevText decode s) <
        byteLen (decode ((s.tokens ++ [token]).drop s.prev_index)) := by
      rw [hpt, htext, hR, List.append_nil]
      omega
    refine ⟨_, none, stream_next_stall decode alnum s token hnlt,
      ⟨h1, ?_⟩, rfl, ?_⟩
    · show s.current_index ≤ (s.tokens ++ [token]).length
      simp only [List.length_append, List.length_cons, List.length_nil]
      omega
    · show decode (s.tokens.take s.current_index) ++ (none : Option (List Char)).getD [] =
        decode ((s.tokens ++ [token]).take s.current_index)
      simp [htake]
  · have hposR : 0 < byteLen
        (decode ((s.tokens ++ [token]).drop s.current_index)) := by
      rcases byteLen_eq_zero.not.mpr hR with h
      omega
    have hlt : byteLen (prevText decode s) <
        byteLen (decode ((s.tokens ++ [token]).drop s.prev_index)) := by
      rw [hpt, htext, byteLen_append]
      omega
    have hne : decode ((s.tokens ++ [token]).drop s.prev_index) ≠ [] :=
      ne_nil_of_byteLen_pos (Nat.lt_of_le_of_lt (Nat.zero_le _) hlt)
    obtain ⟨c, hc⟩ := getLast_exists hne
    have hsplit : splitAtBytes
        (decode ((s.tokens ++ [token]).drop s.prev_index))
        (byteLen (prevText decode s)) =
        some (decode (sliceT s.tokens s.prev_index s.current_index),
              decode ((s.tokens ++ [token]).drop s.current_index)) := by
      rw [hpt, htext]
      exact splitAtBytes_append _ _
    cases ha : alnum c with
    | false =>
      refine ⟨_, none, stream_next_notAlnum decode alnum s token c hlt hc ha,
        ⟨h1, ?_⟩, rfl, ?_⟩
      · show s.current_index ≤ (s.tokens ++ [token]).length
        simp only [List.length_append, List.length_cons, List.length_nil]
        omega
      · show decode (s.tokens.take s.current_index) ++ (none : Option (List Char)).getD [] =
          decode ((s.tokens ++ [token]).take s.current_index)
        simp [htake]
    | true =>
      refine ⟨_, some (decode ((s.tokens ++ [token]).drop s.current_index)),
        stream_next_flush decode alnum s token c _ hlt hc ha hsplit,
        ⟨h2.trans (Nat.le_succ _), ?_⟩, rfl, ?_⟩
      · show s.tokens.length + 1 ≤ (s.tokens ++ [token]).length
        simp
      · show decode (s.tokens.take s.current_index) ++
          decode ((s.tokens ++ [token]).drop s.current_index) =
          decode ((s.tokens ++ [token]).take (s.tokens.length + 1))
        have htakeAll : (s.tokens ++ [token]).take (s.tokens.length + 1) =
            s.tokens ++ [token] :=
          List.take_of_length_le (by simp)
        rw [htakeAll]
        conv_rhs =>
          rw [← List.take_append_drop s.current_index (s.tokens ++ [token])]
        rw [hconc, htake]

/-- Pushing a whole sequence under a concatenative decode: panic-free,
well-formed, and the accumulated output is exactly the advance of the
delivered-text measure. -/
theorem pushAll_concat (decode : List Nat → List Char) (alnum : Char → Bool)
    (hconc : ∀ a b, decode (a ++ b) = decode a ++ decode b) :
    ∀ (T : List Nat) (s : TextOutputStream), s.wf →
      ∃ s' out, s.pushAll decode alnum T = some (s', out) ∧ s'.wf ∧
        s'.tokens = s.tokens ++ T ∧
        decode (s.tokens.take s.current_index) ++ out =
          decode (s'.tokens.take s'.current_index) := by
  intro T
  induction T with
  | nil =>
    intro s hwf
    exact ⟨s, [], rfl, hwf, by simp, by simp⟩
  | cons t ts ih =>
    intro s hwf
    obtain ⟨s1, frag, hstep, hwf1, htok1, hinv1⟩ :=
      step_concat decode alnum hconc s t hwf
    obtain ⟨s2, out2, hrest, hwf2, htok2, hinv2⟩ := ih s1 hwf1
    refine ⟨s2, frag.getD [] ++ out2, ?_, hwf2, ?_, ?_⟩
    · rw [TextOutputStream.pushAll, hstep]
      simp only []
      rw [hrest]
    · rw [htok2, htok1, List.append_assoc]
      rfl
    · rw [← List.append_assoc, hinv1, hinv2]

/-! ## Claim theorems: generation loop and sampling resolution -/

/-- C4: `GenerationConfig::sampling` is a pure total function resolving
`argMax` whenever temperature is absent or below 1e-7, irrespective of
top_k/top_p, and otherwise branching on the presence of top_k and top_p:
neither gives `all`, only top_k gives `topK`, only top_p gives `topP`,
both give `topKThenTopP`. -/
theorem sampling_resolution (c : GenerationConfig) (t : ℚ) :
    (c.temperature = none → c.sampling = .argMax) ∧
    (c.temperature = some t → t < samplingThreshold → c.sampling = .argMax) ∧
    (c.temperature = some t → samplingThreshold ≤ t →
      (c.top_k = none → c.top_p = none → c.sampling = .all t) ∧
      (∀ k, c.top_k = some k → c.top_p = none → c.sampling = .topK k t) ∧
      (∀ p, c.top_k = none → c.top_p = some p → c.sampling = .topP p t) ∧
      (∀ k p, c.top_k = some k → c.top_p = some p →
        c.sampling = .topKThenTopP k p t)) := by
  refine ⟨fun h => ?_, fun h hlt => ?_, fun h hge => ?_⟩
  · simp [GenerationConfig.sampling, h]
  · simp [GenerationConfig.sampling, h, hlt]
  · have hnot : ¬ t < samplingThreshold := not_lt.mpr hge
    refine ⟨fun hk hp => ?_, fun k hk hp => ?_, fun p hk hp => ?_,
      fun k p hk hp => ?_⟩ <;>
      simp [GenerationConfig.sampling, h, hnot, hk, hp]

/-- C4 witness: the resolution evaluated on two concrete configurations. -/
theorem sampling_resolution_witness :
    cfgFull.sampling = .topKThenTopP 40 (9 / 10) (6 / 10) ∧
    cfgEosOnly.sampling = .argMax := by
  constructor
  · exact (sampling_resolution cfgFull (6 / 10)).2.2 rfl
      (by norm_num [samplingThreshold]) |>.2.2.2 40 (9 / 10) rfl rfl
  · exact (sampling_resolution cfgEosOnly (6 / 10)).1 rfl

/-- C8: `TextGeneration::new` fails to construct (the EOS `unwrap`
panics) exactly when the configuration has no EOS information, and
otherwise succeeds, capturing the repetition-penalty factor with
default 1 when absent. -/
theorem new_eos_spec {σ : Type} (σ0 : σ) (c : GenerationConfig) (n : Nat) :
    (TextGeneration.new σ0 c n = none ↔ c.eos_token_id = none) ∧
    (c.eos_token_id ≠ none → ∃ g, TextGeneration.new σ0 c n = some g ∧
      g.repetition_penalty = c.repetition_penalty.getD 1 ∧
      (c.repetition_penalty = none → g.repetition_penalty = 1)) := by
  have hpen : ∀ g : TextGeneration σ,
      g.repetition_penalty = c.get_repetition_penalty_or 1 →
      g.repetition_penalty = c.repetition_penalty.getD 1 ∧
      (c.repetition_penalty = none → g.repetition_penalty = 1) := by
    intro g hg
    refine ⟨hg, fun hp => ?_⟩
    rw [hg, GenerationConfig.get_repetition_penalty_or, hp]
    rfl
  rcases hc : c.eos_token_id with _ | e
  · refine ⟨?_, fun h => absurd rfl h⟩
    simp [TextGeneration.new, GenerationConfig.get_eos_token_id, hc]
  · rcases e with id | ids
    · refine ⟨?_, fun _ => ?_⟩
      · simp [TextGeneration.new, GenerationConfig.get_eos_token_id, hc]
      · have hnew : TextGeneration.new σ0 c n = some
            { oracleState := σ0
              repetition_penalty := c.get_repetition_penalty_or 1
              repeat_last_n := n
              eos_token_id := [id]
              max_new_tokens := c.get_max_new_tokens_or 0
              generated_tokens := 0
              tokens := [] } := by
          simp [TextGeneration.new, GenerationConfig.get_eos_token_id, hc]
        exact ⟨_, hnew, hpen _ rfl⟩
    · refine ⟨?_, fun _ => ?_⟩
      · simp [TextGeneration.new, GenerationConfig.get_eos_token_id, hc]
      · have hnew : TextGeneration.new σ0 c n = some
            { oracleState := σ0
              repetition_penalty := c.get_repetition_penalty_or 1
              repeat_last_n := n
              eos_token_id := ids
              max_new_tokens := c.get_max_new_tokens_or 0
              generated_tokens := 0
              tokens := [] } := by
          simp [TextGeneration.new, GenerationConfig.get_eos_token_id, hc]
        exact ⟨_, hnew, hpen _ rfl⟩

/-- C8 witness: construction fails on a configuration without EOS and
succeeds with default penalty 1 on one that only has an EOS id. -/
theorem new_eos_spec_witness :
    (TextGeneration.new () cfgNoEos 64 = none ↔ cfgNoEos.eos_token_id = none) ∧
    ∃ g, TextGeneration.new () cfgEosOnly 64 = some g ∧
      g.repetition_penalty = 1 := by
  refine ⟨(new_eos_spec () cfgNoEos 64).1, ?_⟩
  rcases (new_eos_spec () cfgEosOnly 64).2 (by decide) with ⟨g, hg, _, hd⟩
  exact ⟨g, hg, hd rfl⟩

/-- C2: a step fails with `maxNewTokenExceeded`, carrying the configured
limit, exactly when `generated_tokens ≥ max_new_tokens` already holds at
the start of the step, and in that case the session state is returned
unchanged: no token appended, no counter or sampler-state mutation. -/
theorem next_token_budget {σ ε : Type} (oracle : Oracle σ ε)
    (s : TextGeneration σ) (n : Nat) :
    ((s.next_token oracle n).2 = .maxNewTokenExceeded s.max_new_tokens ↔
      s.max_new_tokens ≤ s.generated_tokens) ∧
    (∀ m, (s.next_token oracle n).2 = .maxNewTokenExceeded m →
      m = s.max_new_tokens) ∧
    (s.max_new_tokens ≤ s.generated_tokens → (s.next_token oracle n).1 = s) := by
  rcases next_token_cases oracle s n with ⟨h, heq⟩ | ⟨h, σ', r, _, hcase⟩
  · simp [heq, h]
  · have hne : ¬ s.max_new_tokens ≤ s.generated_tokens := not_le.mpr h
    rcases hcase with ⟨e, _, heq⟩ | ⟨tok, _, heq⟩
    · simp [heq, hne]
    · by_cases he : tok ∈ s.eos_token_id <;> simp [heq, he, hne]

/-- C2 witness: a session with `generated_tokens = max_new_tokens = 10`
fails with the limit and is left unchanged. -/
theorem next_token_budget_witness :
    (exhaustedSession.next_token oracle7 1).2 = .maxNewTokenExceeded 10 ∧
    (exhaustedSession.next_token oracle7 1).1 = exhaustedSession := by
  have h := next_token_budget oracle7 exhaustedSession 1
  exact ⟨h.1.mpr (by decide), h.2.2 (by decide)⟩

/-- C3: on a step whose budget check passes and whose oracle samples
`tok`, the token is appended to the history and the generated counter is
incremented before the EOS test, and the step returns
`eos tok (generated_tokens + 1)` precisely when `tok` is in the EOS set,
and `ok tok` otherwise. -/
theorem next_token_eos_spec {σ ε : Type} (oracle : Oracle σ ε)
    (s : TextGeneration σ) (n : Nat) (σ' : σ) (tok : Nat)
    (hbudget : s.generated_tokens < s.max_new_tokens)
    (hsample : oracle (s.tokens.drop (s.tokens.length - n))
      (s.tokens.length - n) s.oracleState = (σ', Except.ok tok)) :
    (s.next_token oracle n).1.tokens = s.tokens ++ [tok] ∧
    (s.next_token oracle n).1.generated_tokens = s.generated_tokens + 1 ∧
    (tok ∈ s.eos_token_id →
      (s.next_token oracle n).2 = .eos tok (s.generated_tokens + 1)) ∧
    (tok ∉ s.eos_token_id → (s.next_token oracle n).2 = .ok tok) := by
  rcases next_token_cases oracle s n with ⟨h, _⟩ | ⟨_, σ'', r, ho, hcase⟩
  · exact absurd h (not_le.mpr hbudget)
  · rw [hsample] at ho
    obtain ⟨hσ, hr⟩ : σ'' = σ' ∧ r = Except.ok tok := by
      constructor
      · exact congrArg Prod.fst ho.symm
      · exact congrArg Prod.snd ho.symm
    rcases hcase with ⟨e, hre, _⟩ | ⟨tok', hrt, heq⟩
    · rw [hre] at hr; cases hr
    · rw [hrt] at hr
      injection hr with htok
      rw [htok] at heq
      by_cases he : tok ∈ s.eos_token_id <;> simp [heq, he]

/-- C3 witness: sampling the EOS token 100 in a mid-session state
appends it, increments the counter to 4 and returns `eos 100 4`. -/
theorem next_token_eos_spec_witness :
    (cexSession.next_token oracle100 1).1.tokens = [1, 2, 3, 4, 5, 100] ∧
    (cexSession.next_token oracle100 1).2 = .eos 100 4 := by
  have h := next_token_eos_spec oracle100 cexSession 1 () 100 (by decide) rfl
  exact ⟨h.1, h.2.2.1 (by decide)⟩

/-- C5 counterexample: `apply` on a session holding 5 tokens, with one
initial token and budget 10, is a successful step, yet the token history
afterwards is shorter than before — the history length is not monotone
across the public operation `apply`. -/
theorem session_history_cex :
    (cexSession.apply oracle7 (fun u => u) [9] 10).2 = .ok 7 ∧
    (cexSession.apply oracle7 (fun u => u) [9] 10).1.tokens.length <
      cexSession.tokens.length := by
  constructor <;> decide

/-- C5 amended: after any successful step (`ok`, or the terminal `eos`
signal) `generated_tokens ≤ max_new_tokens` holds; `next_token` never
shrinks the token history; and a successful `apply` replaces the history
with the supplied initial tokens plus the sampled token (so its length
may decrease relative to the previous session), with its counter again
bounded by the new budget. -/
theorem session_invariant {σ ε : Type} (oracle : Oracle σ ε) (reset : σ → σ)
    (s : TextGeneration σ) (n : Nat) (ids : List Nat) (m : Nat) :
    (∀ tok, (s.next_token oracle n).2 = .ok tok →
      (s.next_token oracle n).1.generated_tokens ≤
        (s.next_token oracle n).1.max_new_tokens) ∧
    (∀ tok g, (s.next_token oracle n).2 = .eos tok g →
      (s.next_token oracle n).1.generated_tokens ≤
        (s.next_token oracle n).1.max_new_tokens) ∧
    s.tokens.length ≤ (s.next_token oracle n).1.tokens.length ∧
    (∀ tok, (s.apply oracle reset ids m).2 = .ok tok →
      (s.apply oracle reset ids m).1.generated_tokens ≤ m ∧
      (s.apply oracle reset ids m).1.tokens = ids ++ [tok]) := by
  have main : ∀ (s1 : TextGeneration σ) (k : Nat),
      (∀ tok, (s1.next_token oracle k).2 = .ok tok →
        (s1.next_token oracle k).1.generated_tokens ≤
          (s1.next_token oracle k).1.max_new_tokens ∧
        (s1.next_token oracle k).1.tokens = s1.tokens ++ [tok]) ∧
      (∀ tok g, (s1.next_token oracle k).2 = .eos tok g →
        (s1.next_token oracle k).1.generated_tokens ≤
          (s1.next_token oracle k).1.max_new_tokens) ∧
      s1.tokens.length ≤ (s1.next_token oracle k).1.tokens.length ∧
      (s1.next_token oracle k).1.max_new_tokens = s1.max_new_tokens := by
    intro s1 k
    rcases next_token_cases oracle s1 k with ⟨h, heq⟩ | ⟨h, σ', r, _, hcase⟩
    · simp [heq]
    · rcases hcase with ⟨e, _, heq⟩ | ⟨tok, _, heq⟩
      · simp [heq]
      · by_cases he : tok ∈ s1.eos_token_id <;> simp [heq, he] <;> omega

  refine ⟨fun tok h => ((main s n).1 tok h).1, (main s n).2.1, (main s n).2.2.1, ?_⟩
  intro tok h
  rw [TextGeneration.apply] at h ⊢
  have hm := main { s with oracleState := reset s.oracleState, tokens := ids,
                           generated_tokens := 0, max_new_tokens := m } ids.length
  rcases hm with ⟨hok, _, _, hmax⟩
  refine ⟨?_, (hok tok h).2⟩
  have := (hok tok h).1
  rw [hmax] at this
  exact this

/-- C5 amended witness: evaluated on a concrete mid-session state. -/
theorem session_invariant_witness :
    (cexSession.next_token oracle7 1).1.generated_tokens ≤
      (cexSession.next_token oracle7 1).1.max_new_tokens ∧
    (cexSession.apply oracle7 (fun u => u) [9] 10).1.tokens = [9, 7] := by
  have h := session_invariant oracle7 (fun u => u) cexSession 1 [9] 10
  exact ⟨h.1 7 (by decide), (h.2.2.2 7 (by decide)).2⟩

/-! ## Claim theorems: streaming detokenizer -/

/-- C6: a non-panicking push returns a fragment exactly when the decode
of `history[prev_index..]` after appending the token is byte-longer than
the decode of `history[prev_index..current_index]` before appending and
its last character is alphanumeric; the fragment is the new text with
its first `byteLen prev_text` bytes removed, with the offsets advanced
to `prev_index := current_index`, `current_index := history length`;
otherwise nothing is returned and the offsets are unchanged. -/
theorem next_token_flush_spec (decode : List Nat → List Char)
    (alnum : Char → Bool) (s : TextOutputStream) (token : Nat)
    (hnil : decode [] = [])
    (hpre : ∃ u, decode (sliceT s.tokens s.prev_index s.current_index) ++ u =
      decode ((s.tokens ++ [token]).drop s.prev_index)) :
    ((byteLen (decode (sliceT s.tokens s.prev_index s.current_index)) <
        byteLen (decode ((s.tokens ++ [token]).drop s.prev_index)) ∧
      (∃ c, (decode ((s.tokens ++ [token]).drop s.prev_index)).getLast? =
          some c ∧ alnum c = true)) →
      ∃ frag, s.next_token decode alnum token =
        some ({ tokens := s.tokens ++ [token], prev_index := s.current_index,
                current_index := s.tokens.length + 1 }, some frag) ∧
        decode (sliceT s.tokens s.prev_index s.current_index) ++ frag =
          decode ((s.tokens ++ [token]).drop s.prev_index)) ∧
    (¬ (byteLen (decode (sliceT s.tokens s.prev_index s.current_index)) <
        byteLen (decode ((s.tokens ++ [token]).drop s.prev_index)) ∧
      (∃ c, (decode ((s.tokens ++ [token]).drop s.prev_index)).getLast? =
          some c ∧ alnum c = true)) →
      s.next_token decode alnum token =
        some ({ s with tokens := s.tokens ++ [token] }, none)) := by
  obtain ⟨u, hu⟩ := hpre
  have hpt := prevText_eq decode s hnil
  constructor
  · rintro ⟨hlt, c, hc, ha⟩
    have hsplit : splitAtBytes
        (decode ((s.tokens ++ [token]).drop s.prev_index))
        (byteLen (prevText decode s)) =
        some (decode (sliceT s.tokens s.prev_index s.current_index), u) := by
      rw [hpt, ← hu]
      exact splitAtBytes_append _ _
    refine ⟨u, ?_, hu⟩
    exact stream_next_flush decode alnum s token c _
      (by rw [hpt]; exact hlt) hc ha hsplit
  · intro hn
    by_cases hlt : byteLen (decode (sliceT s.tokens s.prev_index s.current_index)) <
        byteLen (decode ((s.tokens ++ [token]).drop s.prev_index))
    · have hne : decode ((s.tokens ++ [token]).drop s.prev_index) ≠ [] :=
        ne_nil_of_byteLen_pos (Nat.lt_of_le_of_lt (Nat.zero_le _) hlt)
      obtain ⟨c, hc⟩ := getLast_exists hne
      have ha : alnum c = false := by
        cases hb : alnum c with
        | false => rfl
        | true => exact absurd ⟨hlt, c, hc, hb⟩ hn
      exact stream_next_notAlnum decode alnum s token c
        (by rw [hpt]; exact hlt) hc ha
    · exact stream_next_stall decode alnum s token (by rw [hpt]; exact hlt)

/-- C6 witness: pushing token 1 into a fresh stream under the transducer
decode flushes the fragment `['a']` and advances the offsets. -/
theorem next_token_flush_spec_witness :
    ∃ frag, TextOutputStream.new.next_token cdec Char.isAlphanum 1 =
      some ({ tokens := [1], prev_index := 0, current_index := 1 },
        some frag) ∧
      cdec (sliceT TextOutputStream.new.tokens 0 0) ++ frag = cdec [1] :=
  (next_token_flush_spec cdec Char.isAlphanum TextOutputStream.new 1 rfl
    ⟨['a'], rfl⟩).1 ⟨by decide, 'a', rfl, rfl⟩

/-- C7: from a fresh stream, any sequence of non-panicking pushes keeps
`prev_index ≤ current_index ≤ history length`, each push moves neither
offset backwards, and `decode_rest` takes the state immutably (it is a
function of the state returning only the optional fragment, so it cannot
mutate the offsets). -/
theorem offsets_invariant (decode : List Nat → List Char)
    (alnum : Char → Bool) :
    (∀ (s s' : TextOutputStream) (token : Nat) (frag : Option (List Char)),
      s.wf → s.next_token decode alnum token = some (s', frag) →
      s'.wf ∧ s.prev_index ≤ s'.prev_index ∧
        s.current_index ≤ s'.current_index) ∧
    (∀ (T : List Nat) (s' : TextOutputStream) (out : List Char),
      TextOutputStream.new.pushAll decode alnum T = some (s', out) →
      s'.wf) := by
  refine ⟨fun s s' token frag hwf h =>
    stream_step_wf decode alnum s s' token frag hwf h, ?_⟩
  have gen : ∀ (T : List Nat) (s : TextOutputStream), s.wf →
      ∀ s' out, s.pushAll decode alnum T = some (s', out) → s'.wf := by
    intro T
    induction T with
    | nil =>
      intro s hwf s' out h
      rw [TextOutputStream.pushAll, Option.some.injEq, Prod.mk.injEq] at h
      rw [← h.1]
      exact hwf
    | cons t ts ih =>
      intro s hwf s' out h
      rw [TextOutputStream.pushAll] at h
      rcases hn : s.next_token decode alnum t with _ | ⟨s1, frag⟩ <;>
        rw [hn] at h
      · cases h
      · simp only [] at h
        rcases hp : s1.pushAll decode alnum ts with _ | ⟨s2, out2⟩ <;>
          rw [hp] at h
        · cases h
        · simp only [Option.some.injEq, Prod.mk.injEq] at h
          have hwf1 := (stream_step_wf decode alnum s s1 t frag hwf hn).1
          have hwf2 := ih s1 hwf1 s2 out2 hp
          rw [← h.1]
          exact hwf2
  exact fun T s' out h =>
    gen T TextOutputStream.new ⟨Nat.le_refl 0, Nat.le_refl 0⟩ s' out h

/-- C7 witness: the invariant evaluated after pushing three concrete
tokens under the transducer decode. -/
theorem offsets_invariant_witness :
    TextOutputStream.wf { tokens := [1, 2, 3], prev_index := 2,
                          current_index := 3 } :=
  (offsets_invariant cdec Char.isAlphanum).2 [1, 2, 3]
    { tokens := [1, 2, 3], prev_index := 2, current_index := 3 }
    ['a', 'b', 'y'] (by decide)

/-- C10: a push never panics when the `prev_text` the code computes is
an exact byte-prefix of the new text ending on a character boundary (a
prefix as a character list): the last-character `unwrap` is guarded by
the byte-length test, and the byte-index `split_at` falls on the
boundary. -/
theorem next_token_total (decode : List Nat → List Char)
    (alnum : Char → Bool) (s : TextOutputStream) (token : Nat)
    (hpre : ∃ u, prevText decode s ++ u =
      decode ((s.tokens ++ [token]).drop s.prev_index)) :
    (s.next_token decode alnum token).isSome = true := by
  obtain ⟨u, hu⟩ := hpre
  by_cases hlt : byteLen (prevText decode s) <
      byteLen (decode ((s.tokens ++ [token]).drop s.prev_index))
  · have hne : decode ((s.tokens ++ [token]).drop s.prev_index) ≠ [] :=
      ne_nil_of_byteLen_pos (Nat.lt_of_le_of_lt (Nat.zero_le _) hlt)
    obtain ⟨c, hc⟩ := getLast_exists hne
    have hsplit : splitAtBytes
        (decode ((s.tokens ++ [token]).drop s.prev_index))
        (byteLen (prevText decode s)) = some (prevText decode s, u) := by
      rw [← hu]
      exact splitAtBytes_append _ _
    cases ha : alnum c with
    | true =>
      rw [stream_next_flush decode alnum s token c _ hlt hc ha hsplit]
      rfl
    | false =>
      rw [stream_next_notAlnum decode alnum s token c hlt hc ha]
      rfl
  · rw [stream_next_stall decode alnum s token hlt]
    rfl

/-- C10 witness: a concrete non-panicking push (fresh stream, transducer
decode, token 1). -/
theorem next_token_total_witness :
    (TextOutputStream.new.next_token cdec Char.isAlphanum 1).isSome = true :=
  next_token_total cdec Char.isAlphanum TextOutputStream.new 1 ⟨['a'], rfl⟩

/-- C1 counterexample: the transducer decode `cdec` satisfies the
monotonic byte-prefix property (`cdec a` is a byte-prefix of
`cdec (a ++ b)` for all `a`, `b`), yet pushing `[1, 2, 3]` through a
fresh stream emits `a`, `b`, `y`, the final `decode_rest` flushes
nothing, and `decode_all` yields `abz`: the streamed concatenation
differs from the full decode, so the prefix property alone does not
imply the round-trip invariant. -/
theorem streaming_round_trip_cex :
    (∀ a b : List Nat, ∃ t, cdec a ++ t = cdec (a ++ b)) ∧
    TextOutputStream.new.pushAll cdec Char.isAlphanum [1, 2, 3] =
      some ({ tokens := [1, 2, 3], prev_index := 2, current_index := 3 },
        ['a', 'b', 'y']) ∧
    TextOutputStream.decode_rest cdec
      { tokens := [1, 2, 3], prev_index := 2, current_index := 3 } =
      some none ∧
    TextOutputStream.decode_all cdec
      { tokens := [1, 2, 3], prev_index := 2, current_index := 3 } =
      ['a', 'b', 'z'] ∧
    (['a', 'b', 'y'] : List Char) ≠ ['a', 'b', 'z'] :=
  ⟨fun a b => tRun_mono a .s0 b, by decide, by decide, by decide, by decide⟩

/-- C1 amended: when the decode capability is concatenative
(`decode (a ++ b) = decode a ++ decode b`, a strengthening of the
monotonic byte-prefix property under which every window boundary is
stable), pushing any finite token sequence through a fresh stream never
panics, and the concatenation of all emitted fragments followed by the
`decode_rest` fragment equals `decode_all`. -/
theorem streaming_round_trip (decode : List Nat → List Char)
    (alnum : Char → Bool) (T : List Nat)
    (hconc : ∀ a b, decode (a ++ b) = decode a ++ decode b) :
    ∃ s out rest,
      TextOutputStream.new.pushAll decode alnum T = some (s, out) ∧
      s.decode_rest decode = some rest ∧
      out ++ rest.getD [] = s.decode_all decode := by
  have hnil := concat_nil hconc
  obtain ⟨s, out, hpush, hwf, htok, hinv⟩ :=
    pushAll_concat decode alnum hconc T TextOutputStream.new
      ⟨Nat.le_refl 0, Nat.le_refl 0⟩
  have hout : out = decode (s.tokens.take s.current_index) := by
    have h0 : TextOutputStream.new.tokens.take
        TextOutputStream.new.current_index = [] := rfl
    rw [h0, hnil, List.nil_append] at hinv
    exact hinv
  have hpt := prevText_eq decode s hnil
  have hdecomp : decode (s.tokens.drop s.prev_index) =
      decode (sliceT s.tokens s.prev_index s.current_index) ++
        decode (s.tokens.drop s.current_index) := by
    rw [drop_decomp s.tokens s.prev_index s.current_index hwf.1, hconc]
  have hall : s.decode_all decode = decode s.tokens := rfl
  have hfull : decode s.tokens =
      decode (s.tokens.take s.current_index) ++
        decode (s.tokens.drop s.current_index) := by
    conv_lhs => rw [← List.take_append_drop s.current_index s.tokens]
    rw [hconc]
  by_cases hR : decode (s.tokens.drop s.current_index) = []
  · have hnlt : ¬ byteLen (prevText decode s) <
        byteLen (decode (s.tokens.drop s.prev_index)) := by
      rw [hpt, hdecomp, hR, List.append_nil]
      omega
    refine ⟨s, out, none, hpush, decode_rest_stall decode s hnlt, ?_⟩
    rw [hall, hfull, hR, List.append_nil, hout]
    simp
  · have hposR : 0 < byteLen (decode (s.tokens.drop s.current_index)) := by
      have := byteLen_eq_zero.not.mpr hR
      omega
    have hlt : byteLen (prevText decode s) <
        byteLen (decode (s.tokens.drop s.prev_index)) := by
      rw [hpt, hdecomp, byteLen_append]
      omega
    have hsplit : splitAtBytes (decode (s.tokens.drop s.prev_index))
        (byteLen (prevText decode s)) =
        some (decode (sliceT s.tokens s.prev_index s.current_index),
              decode (s.tokens.drop s.current_index)) := by
      rw [hpt, hdecomp]
      exact splitAtBytes_append _ _
    refine ⟨s, out, some (decode (s.tokens.drop s.current_index)), hpush,
      decode_rest_flush decode s _ hlt hsplit, ?_⟩
    rw [hall, hfull, hout]
    rfl

/-- C1 amended witness: the round trip evaluated for the concatenative
character-per-token decode on a concrete sequence. -/
theorem streaming_round_trip_witness :
    ∃ s out rest,
      TextOutputStream.new.pushAll mapDec Char.isAlphanum [0, 1, 2] =
        some (s, out) ∧
      s.decode_rest mapDec = some rest ∧
      out ++ rest.getD [] = s.decode_all mapDec :=
  streaming_round_trip mapDec Char.isAlphanum [0, 1, 2]
    (fun a b => List.map_append _ a b)

/-! ## Claim theorems: shard-index resolution -/

/-- The `as_str` embedding succeeds exactly on string values. -/
theorem as_str_eq {j : Json} {s : String} :
    j.as_str = some s ↔ j = .str s := by
  cases j <;> simp [Json.as_str]

/-- C9: shard-index resolution returns exactly the set of distinct
string values appearing in `weight_map` (each filename once, however
many tensor names map to it), `load_safetensors` resolves one path per
set element, and a document with no `weight_map` field, or whose
`weight_map` is not a map, yields an error. -/
theorem read_safetensors_index_spec (json : Json)
    (fields : List (String × Json)) :
    (json.get "weight_map" = none →
      ∃ e, read_safetensors_index_file json = .error e) ∧
    (∀ j, json.get "weight_map" = some j → (∀ f, j ≠ .obj f) →
      ∃ e, read_safetensors_index_file json = .error e) ∧
    (json.get "weight_map" = some (.obj fields) →
      ∃ r, read_safetensors_index_file json = .ok r ∧
        (∀ name : String, name ∈ r ↔ Json.str name ∈ fields.map Prod.snd) ∧
        ∀ join : String → String, ∃ l, load_safetensors join json = .ok l ∧
          l.length = r.card) := by
  refine ⟨fun h => ?_, fun j hj hno => ?_, fun h => ?_⟩
  · simp only [read_safetensors_index_file, h]
    exact ⟨_, rfl⟩
  · rcases j with _ | b | q | str | elems | f
    · simp only [read_safetensors_index_file, hj]
      exact ⟨_, rfl⟩
    · simp only [read_safetensors_index_file, hj]
      exact ⟨_, rfl⟩
    · simp only [read_safetensors_index_file, hj]
      exact ⟨_, rfl⟩
    · simp only [read_safetensors_index_file, hj]
      exact ⟨_, rfl⟩
    · simp only [read_safetensors_index_file, hj]
      exact ⟨_, rfl⟩
    · exact absurd rfl (hno f)
  · have hok : read_safetensors_index_file json =
        .ok (fields.filterMap fun p => p.2.as_str).toFinset := by
      simp only [read_safetensors_index_file, h]
    refine ⟨_, hok, ?_, ?_⟩
    · intro name
      simp only [List.mem_toFinset, List.mem_filterMap, List.mem_map,
        as_str_eq]
    · intro join
      refine ⟨((fields.filterMap fun p => p.2.as_str).toFinset.sort
          fun a b => a ≤ b).map join, ?_, ?_⟩
      · rw [load_safetensors, hok]
        rfl
      · simp [Finset.length_sort]

/-- C9 witness: a 10-entry weight map over 2 shard filenames resolves to
exactly 2 entries, and the two malformed documents yield errors. -/
theorem read_safetensors_index_spec_witness :
    (∃ r, read_safetensors_index_file wmJson = .ok r ∧
      (∀ name : String, name ∈ r ↔ Json.str name ∈ wmFields.map Prod.snd) ∧
      ∀ join : String → String, ∃ l, load_safetensors join wmJson = .ok l ∧
        l.length = r.card) ∧
    (∃ e, read_safetensors_index_file wmMissing = .error e) ∧
    (∃ e, read_safetensors_index_file wmNotMap = .error e) ∧
    (read_safetensors_index_file wmJson).toOption.map Finset.card =
      some 2 := by
  refine ⟨(read_safetensors_index_spec wmJson wmFields).2.2 rfl,
    (read_safetensors_index_spec wmMissing wmFields).1 rfl,
    (read_safetensors_index_spec wmNotMap wmFields).2.1 (Json.str "oops")
      rfl (fun f hf => Json.noConfusion hf), ?_⟩
  decide

end Mospeada
